import Mathlib

/-!
Verification of the vobsub-to-srt subtitle converter.

The development shallowly embeds the pure core of the two decoder
implementations in the repository — the library class in
`src/lib/VobSubDecoder.js` and the legacy CLI class in `src/index.js` —
as executable Lean functions over `List Char` (JavaScript strings) and
`Nat` (JavaScript non-negative integer arithmetic).  External effects
(ffmpeg invocations, OCR, the filesystem) are abstracted: the timing
probe becomes a list of `(pts milliseconds, checksum)` signals, the OCR
batch becomes a list of recognized texts, and the two merge routines are
modelled as the pure functions of those inputs that the JS code computes.
A JavaScript runtime error (out-of-bounds property access, stack
overflow) is modelled by `Option`/fuel: `none` means the JS code throws
or diverges on that input.
-/

set_option maxRecDepth 10000

/-! ## Character classes used by the normalizer

`isJsSpace` is the character class of JavaScript's `\s` (the set matched
by `/\s/`): ASCII whitespace plus the Unicode space separators, NBSP,
BOM and the line/paragraph separators.  `isWordChar` is JavaScript `\w`,
i.e. `[A-Za-z0-9_]`. -/

def isJsSpace (c : Char) : Bool :=
  c = ' ' || c = '\t' || c = '\n' || c = '\r' || c = '\u000b' || c = '\u000c' ||
  c = '\u00a0' || c = '\u1680' || ('\u2000' ≤ c && c ≤ '\u200a') ||
  c = '\u2028' || c = '\u2029' || c = '\u202f' || c = '\u205f' ||
  c = '\u3000' || c = '\ufeff'

def isWordChar (c : Char) : Bool :=
  ('a' ≤ c && c ≤ 'z') || ('A' ≤ c && c ≤ 'Z') || ('0' ≤ c && c ≤ '9') || c = '_'

/-- The characters kept by the strip step of `cleanOcrText`
(`/[^\w\s.,!?;:()\-"']/g` removes everything else). -/
def keepChar (c : Char) : Bool :=
  isWordChar c || isJsSpace c ||
  c = '.' || c = ',' || c = '!' || c = '?' || c = ';' || c = ':' ||
  c = '(' || c = ')' || c = '-' || c = '"' || c = '\''

/-! ## Whitespace collapse and trim

`collapseWs` is `.replace(/\s+/g, " ")`: every maximal run of whitespace
becomes a single ASCII space.  The boolean flag records whether we are
inside a whitespace run whose space has already been emitted.
`trimChars` is `String.prototype.trim()`: whitespace removed from both
ends. -/

def collapseGo : Bool → List Char → List Char
  | _, [] => []
  | inWs, c :: rest =>
    if isJsSpace c then
      if inWs then collapseGo true rest else ' ' :: collapseGo true rest
    else c :: collapseGo false rest

def collapseWs (l : List Char) : List Char := collapseGo false l

/-- Remove trailing characters satisfying `p` (structural version of
`reverse ∘ dropWhile p ∘ reverse`). -/
def dropTrailing (p : Char → Bool) : List Char → List Char
  | [] => []
  | c :: rest =>
    match dropTrailing p rest with
    | [] => if p c then [] else [c]
    | d :: r => c :: d :: r

def trimChars (l : List Char) : List Char :=
  dropTrailing isJsSpace (l.dropWhile isJsSpace)

/-! ## The OCR character-substitution table

`replacementTable` is the `replacements` object of `cleanOcrText`, in
JavaScript property-insertion order.  Each single-character regex
`new RegExp(escapedBad, "g")` replacement over a string is exactly a
character-wise flat map, and the passes are applied sequentially by the
`for … of Object.entries` loop, which `applyReplacements` folds. -/

def replacementTable : List (Char × List Char) :=
  [('/', ['I']), ('\\', ['I']), ('|', ['I']), ('~', ['-']),
   ('°', ['o']), ('¢', ['c']), ('£', ['E']), ('¥', ['Y']),
   ('§', ['S']), ('©', ['O']), ('®', ['R']), ('±', ['+']),
   ('²', ['2']), ('³', ['3']), ('¹', ['1']),
   ('¼', ['1', '/', '4']), ('½', ['1', '/', '2']), ('¾', ['3', '/', '4']),
   ('À', ['A']), ('Á', ['A']), ('Â', ['A']), ('Ã', ['A']), ('Ä', ['A']), ('Å', ['A']),
   ('È', ['E']), ('É', ['E']), ('Ê', ['E']), ('Ë', ['E']),
   ('Ì', ['I']), ('Í', ['I']), ('Î', ['I']), ('Ï', ['I']),
   ('Ò', ['O']), ('Ó', ['O']), ('Ô', ['O']), ('Õ', ['O']), ('Ö', ['O']),
   ('Ù', ['U']), ('Ú', ['U']), ('Û', ['U']), ('Ü', ['U'])]

def replacePass (key : Char) (repl : List Char) (l : List Char) : List Char :=
  l.flatMap fun c => if c = key then repl else [c]

def applyReplacements (l : List Char) : List Char :=
  replacementTable.foldl (fun acc p => replacePass p.1 p.2 acc) l

/-- `cleanOcrText` from `VobSubDecoder.js` (identical in both variants):
guard on falsy input, character substitutions, strip to `keepChar`,
collapse whitespace runs, trim. -/
def cleanOcrText (l : List Char) : List Char :=
  if l = [] then l
  else trimChars (collapseWs ((applyReplacements l).filter keepChar))

/-! ## Decimal rendering (JavaScript `Number.prototype.toString`)

`toDec` renders a non-negative integer in decimal, most significant
digit first; `fromDec` reads a digit list back.  `padStartC` is
`String.prototype.padStart(n, c)`. -/

def digitChar (n : Nat) : Char :=
  match n with
  | 0 => '0' | 1 => '1' | 2 => '2' | 3 => '3' | 4 => '4'
  | 5 => '5' | 6 => '6' | 7 => '7' | 8 => '8' | _ => '9'

def digitVal (c : Char) : Nat := c.toNat - 48

def toDecFuel : Nat → Nat → List Char
  | 0, _ => []
  | fuel + 1, n =>
    if n < 10 then [digitChar n]
    else toDecFuel fuel (n / 10) ++ [digitChar (n % 10)]

/-- Decimal rendering; `n + 1` fuel always suffices (the argument drops
by a factor of ten per step), so this is total decimal notation. -/
def toDec (n : Nat) : List Char := toDecFuel (n + 1) n

def fromDecFrom (a : Nat) (l : List Char) : Nat :=
  l.foldl (fun acc c => acc * 10 + digitVal c) a

def fromDec (l : List Char) : Nat := fromDecFrom 0 l

def padStartC (l : List Char) (n : Nat) (c : Char) : List Char :=
  List.replicate (n - l.length) c ++ l

/-- `formatSrtTimestamp` (identical in both decoder variants): decompose
milliseconds as `HH:MM:SS,mmm` with hours/minutes/seconds padded to two
digits and milliseconds to three. -/
def formatSrtTimestamp (ms : Nat) : List Char :=
  padStartC (toDec (ms / 3600000)) 2 '0' ++
  ':' :: padStartC (toDec (ms % 3600000 / 60000)) 2 '0' ++
  ':' :: padStartC (toDec (ms % 60000 / 1000)) 2 '0' ++
  ',' :: padStartC (toDec (ms % 1000)) 3 '0'

/-! ## Splitting and joining (JavaScript `split` / `Array.join`) -/

/-- `String.prototype.split(sep)` for a single-character separator:
`"a,,b".split(",") = ["a","","b"]`, `"".split(",") = [""]`. -/
def splitChar (sep : Char) : List Char → List (List Char)
  | [] => [[]]
  | c :: rest =>
    if c = sep then [] :: splitChar sep rest
    else
      match splitChar sep rest with
      | [] => [[c]]
      | w :: ws => (c :: w) :: ws

/-- `Array.prototype.join(sep)` for a single-character separator. -/
def joinChar (sep : Char) : List (List Char) → List Char
  | [] => []
  | [w] => w
  | w :: ws => w ++ sep :: joinChar sep ws

/-- Modelled from the spec (§8 timestamp round-trip): the inverse
`HH:MM:SS,mmm` decomposition of the formatter — split on `:` into three
fields, split the last on `,`, require non-empty all-digit components,
and recombine as `hours*3600000 + minutes*60000 + seconds*1000 + ms`. -/
def parseSrtTimestamp (l : List Char) : Option Nat :=
  match splitChar ':' l with
  | [h, m, rest] =>
    match splitChar ',' rest with
    | [s, ms] =>
      if !h.isEmpty && h.all Char.isDigit && !m.isEmpty && m.all Char.isDigit &&
         !s.isEmpty && s.all Char.isDigit && !ms.isEmpty && ms.all Char.isDigit then
        some (fromDec h * 3600000 + fromDec m * 60000 + fromDec s * 1000 + fromDec ms)
      else none
    | _ => none
  | _ => none

/-! ## Line wrapping (`wrapSubtitleText`, identical in both variants)

The greedy word-packing loop is the `for (const word of words)` body; the
state is the pair `(lines, currentLine)`.  The function recurses on the
words not on line 1 when more than two lines were produced; that
recursion does not structurally decrease (for `maxLength = 1` it can
repeat its argument forever, overflowing the JS call stack), so the
model burns one unit of fuel per recursive call and returns `none` when
fuel runs out — `none` models a non-terminating (stack-overflowing) run.
`wrapSubtitleText` supplies `length + 1` fuel, enough for every run in
which the recursive argument shrinks (in particular all calls the
pipeline makes with the default width 42). -/

def wrapStep (maxLength : Nat) (st : List (List Char) × List Char) (word : List Char) :
    List (List Char) × List Char :=
  let lines := st.1
  let currentLine := st.2
  if currentLine.length + word.length + 1 > maxLength then
    if currentLine.length > 0 then (lines ++ [trimChars currentLine], word)
    else if word.length > maxLength then
      (lines ++ [word.take (maxLength - 1) ++ ['-']], word.drop (maxLength - 1))
    else (lines, word)
  else
    if currentLine.length > 0 then (lines, currentLine ++ ' ' :: word)
    else (lines, word)

def wrapGo : Nat → List Char → Nat → Option (List Char)
  | 0, _, _ => none
  | fuel + 1, text, maxLength =>
    if text = [] || text.length ≤ maxLength then some text
    else
      let st := (splitChar ' ' text).foldl (wrapStep maxLength) ([], [])
      let lines := if st.2.length > 0 then st.1 ++ [trimChars st.2] else st.1
      if lines.length > 2 then
        match wrapGo fuel (joinChar ' ' (lines.drop 1)) maxLength with
        | none => none
        | some w => some (lines.headD [] ++ '\n' :: (splitChar '\n' w).headD [])
      else some (joinChar '\n' lines)

def wrapSubtitleText (text : List Char) (maxLength : Nat) : Option (List Char) :=
  wrapGo (text.length + 1) text maxLength

/-! ## The probe-line timeline (`parseTimeline`, library variant)

A matching `showinfo` line contributes a signal: its presentation time
converted to milliseconds and its 8-hex-digit checksum.  The loop body
appends a provisional 3-second entry for a non-blank checksum and
overwrites `timeline[textIndex - 1].endTime` for the blank checksum
`00000000` once at least one entry exists.  `timeline[textIndex - 1]`
is a plain JS element access: the model makes it checked and returns
`none` when it would be out of bounds (a `TypeError` in JS). -/

structure ProbeSignal where
  time : Nat
  checksum : String
deriving DecidableEq, Repr

structure TimelineEntry where
  index : Nat
  startTime : Nat
  endTime : Nat
deriving DecidableEq, Repr

def parseTimelineGo : List ProbeSignal → List TimelineEntry → Nat → Option (List TimelineEntry)
  | [], timeline, _ => some timeline
  | s :: rest, timeline, textIndex =>
    if s.checksum ≠ "00000000" then
      parseTimelineGo rest
        (timeline ++ [{ index := textIndex, startTime := s.time, endTime := s.time + 3000 }])
        (textIndex + 1)
    else if timeline.length > 0 then
      match timeline[textIndex - 1]? with
      | some e =>
        parseTimelineGo rest
          (timeline.set (textIndex - 1) { e with endTime := s.time }) textIndex
      | none => none
    else parseTimelineGo rest timeline textIndex

def parseTimelineOpt (sigs : List ProbeSignal) : Option (List TimelineEntry) :=
  parseTimelineGo sigs [] 0

/-- Number of start signals (non-blank checksums) in a probe log. -/
def countStarts (sigs : List ProbeSignal) : Nat :=
  (sigs.filter fun s => s.checksum ≠ "00000000").length

/-- The timeline produced by a run of start signals with no blank frame:
each opens a default 3-second entry. -/
def defaultEntries : List ProbeSignal → Nat → List TimelineEntry
  | [], _ => []
  | s :: rest, ti =>
    { index := ti, startTime := s.time, endTime := s.time + 3000 } :: defaultEntries rest (ti + 1)

/-- An alternating probe log: start signal (checksum ≠ 00000000), end
signal (checksum = 00000000), start, end, …, optionally finishing with
an unclosed start. -/
def alternating : List ProbeSignal → Bool
  | [] => true
  | [s] => s.checksum ≠ "00000000"
  | s :: e :: rest =>
    (s.checksum ≠ "00000000") && (e.checksum = "00000000") && alternating rest

/-- Strictly increasing presentation times, as a frame-ordered probe
stream reports them. -/
def timesIncreasing : List ProbeSignal → Bool
  | a :: b :: rest => (a.time < b.time) && timesIncreasing (b :: rest)
  | _ => true

/-- The timeline an alternating probe log produces: each start/end pair
becomes a closed entry, a trailing unclosed start keeps its +3000 ms
default. -/
def expectedTl : List ProbeSignal → Nat → List TimelineEntry
  | [], _ => []
  | [s], ti => [{ index := ti, startTime := s.time, endTime := s.time + 3000 }]
  | s :: e :: rest, ti =>
    { index := ti, startTime := s.time, endTime := e.time } :: expectedTl rest (ti + 1)

def nonDecreasing : List Nat → Bool
  | a :: b :: rest => (a ≤ b) && nonDecreasing (b :: rest)
  | _ => true

/-! ## SRT entries and the two merge routines -/

structure SrtEntry where
  index : Nat
  startTime : Nat
  endTime : Nat
  text : List Char
deriving DecidableEq, Repr

/-- The pure result assembly of `processFrames` (library variant,
`src/lib/VobSubDecoder.js` lines 396–413), with the OCR batch output
abstracted to its list of texts (`ocrResult?.text || ""` is the list
element).  Note the source's `.filter((text) => text.length > 0)` runs
over the cleaned texts *before* the positional `timeline.map`, and the
surviving entry keeps `...entry` — the timeline's own 0-based `index`.
`none` propagates a diverging wrap call (a thrown stack overflow). -/
def processFramesResults (timeline : List TimelineEntry) (ocrTexts : List (List Char)) :
    Option (List SrtEntry) :=
  match ocrTexts.mapM (fun r => wrapSubtitleText (trimChars (cleanOcrText r)) 42) with
  | none => none
  | some wrapped =>
    let cleanedTexts := wrapped.filter fun t => t.length > 0
    some ((timeline.enum.map fun p =>
      let text := (cleanedTexts[p.1]?).getD []
      if text.length = 0 then none
      else some { index := p.2.index, startTime := p.2.startTime,
                  endTime := p.2.endTime, text := text }).filterMap id)

/-- `generate` (library variant): serialize entries as
`index \n start --> end \n text \n` blocks joined by a blank line. -/
def generate (srtEntries : List SrtEntry) : List Char :=
  joinChar '\n' (srtEntries.map fun e =>
    joinChar '\n'
      [toDec e.index,
       formatSrtTimestamp e.startTime ++ ' ' :: '-' :: '-' :: '>' :: ' ' ::
         formatSrtTimestamp e.endTime,
       e.text,
       []])

/-! ## The legacy CLI merge (`processSubtitlesWithOCR`, `src/index.js`)

Each slot is a parsed IDX `timestamp:` entry that got a rendered frame;
only its millisecond timestamp matters to the merge.  The loop walks the
slots with a one-slot lookahead for the end time, drops a slot whose
cleaned text is falsy or shorter than two characters after trimming, and
numbers the surviving entries `srtEntries.length + 1` in push order.
The per-slot `try`/`catch` swallows a thrown wrap call, so a `none`
wrap result also just skips the slot. -/

structure IdxSub where
  timestamp : Nat
deriving DecidableEq, Repr

def pswoGo : List IdxSub → List (List Char) → List SrtEntry → List SrtEntry
  | [], _, acc => acc
  | s :: rest, ocr, acc =>
    let text := cleanOcrText ((ocr.headD []))
    if text = [] || (trimChars text).length < 2 then pswoGo rest ocr.tail acc
    else
      match wrapSubtitleText (trimChars text) 42 with
      | none => pswoGo rest ocr.tail acc
      | some wrapped =>
        let endTime := match rest.head? with
          | some n => n.timestamp
          | none => s.timestamp + 3000
        pswoGo rest ocr.tail
          (acc ++ [{ index := acc.length + 1, startTime := s.timestamp,
                     endTime := endTime, text := wrapped }])

def processSubtitlesWithOCR (subs : List IdxSub) (ocr : List (List Char)) : List SrtEntry :=
  pswoGo subs ocr []

/-- Modelled from the spec (§4.4/§4.5): the slots that survive the
"too short" rule, in order, as (startTime, endTime, wrapped text)
triples, *before* renumbering. -/
def survivingSlots : List IdxSub → List (List Char) → List (Nat × Nat × List Char)
  | [], _ => []
  | s :: rest, ocr =>
    let text := cleanOcrText ((ocr.headD []))
    if text = [] || (trimChars text).length < 2 then survivingSlots rest ocr.tail
    else
      match wrapSubtitleText (trimChars text) 42 with
      | none => survivingSlots rest ocr.tail
      | some wrapped =>
        let endTime := match rest.head? with
          | some n => n.timestamp
          | none => s.timestamp + 3000
        (s.timestamp, endTime, wrapped) :: survivingSlots rest ocr.tail

/-- Modelled from the spec (§3 SrtEntry): renumber surviving slots
`k, k+1, …` in order. -/
def renumberFrom (k : Nat) : List (Nat × Nat × List Char) → List SrtEntry
  | [] => []
  | (s, e, t) :: rest =>
    { index := k, startTime := s, endTime := e, text := t } :: renumberFrom (k + 1) rest

/-! ## IDX metadata parsing

Two parsers exist in the repository.  The legacy CLI (`parseIdx` in
`src/index.js`) walks the file line by line, storing `metadata.size`
when a trimmed line starts with `size:`; `extractSubtitleFrames` then
reads `this.metadata.size || { width: 720, height: 480 }`.  The library
(`parse` in `src/lib/VobSubDecoder.js`) instead runs the regex
`/size:\s*(\d+)x(\d+)/` over the whole file and stores nothing when it
does not match.  Only the `size` state (and the reachable `TypeError`s
of the line parser) is modelled; the palette/id/timestamp branches do
not touch `metadata.size`. -/

def splitOnSubFuel (c0 : Char) (sr : List Char) : Nat → List Char → List (List Char)
  | 0, l => [l]
  | _ + 1, [] => [[]]
  | fuel + 1, c :: rest =>
    if (c0 :: sr).isPrefixOf (c :: rest) then
      [] :: splitOnSubFuel c0 sr fuel ((c :: rest).drop (sr.length + 1))
    else
      match splitOnSubFuel c0 sr fuel rest with
      | [] => [[c]]
      | w :: ws => (c :: w) :: ws

/-- `String.prototype.split(sep)` for a separator of length ≥ 1, given
as head character plus tail (so the separator cannot be empty).  Both
recursive calls strictly shorten the string, so `length + 1` fuel makes
this total. -/
def splitOnSub (c0 : Char) (sr : List Char) (l : List Char) : List (List Char) :=
  splitOnSubFuel c0 sr (l.length + 1) l

/-- JavaScript `Number(...)` restricted to the strings this parser can
feed it: `""` is 0, a digit string is its value, anything else is `NaN`
(`none`).  (Full JS `Number` also accepts signs, decimals and exponents;
those shapes never change what the claims below examine.) -/
def jsNumber (s : List Char) : Option Nat :=
  if s = [] then some 0
  else if s.all Char.isDigit then some (fromDec s) else none

/-- The `{ width, height }` object stored by the legacy parser; a `none`
component is JavaScript `NaN` or `undefined`. -/
structure JsSize where
  width : Option Nat
  height : Option Nat
deriving DecidableEq, Repr

/-- The `metadata.size` state of the legacy `parseIdx` loop.  The outer
`Option` is a thrown `TypeError` (`undefined.split`): `none` means the
JS loop crashes on that line. -/
def parseIdxSizeGo : List (List Char) → Option JsSize → Option (Option JsSize)
  | [], st => some st
  | line :: rest, st =>
    if (trimChars line).head? = some '#' || (trimChars line).isEmpty then
      parseIdxSizeGo rest st
    else if ("size:".data).isPrefixOf (trimChars line) then
      match (splitOnSub ':' [' '] (trimChars line))[1]? with
      | none => none
      | some v =>
        parseIdxSizeGo rest (some
          { width := ((((splitChar 'x' v).map jsNumber)[0]?).join),
            height := ((((splitChar 'x' v).map jsNumber)[1]?).join) })
    else if ("palette:".data).isPrefixOf (trimChars line) then
      match (splitOnSub ':' [' '] (trimChars line))[1]? with
      | none => none
      | some _ => parseIdxSizeGo rest st
    else if ("id:".data).isPrefixOf (trimChars line) then
      match (splitOnSub ',' [' '] (trimChars line))[1]? with
      | none => none
      | some _ => parseIdxSizeGo rest st
    else if ("timestamp:".data).isPrefixOf (trimChars line) then
      match (splitOnSub ',' [' '] (trimChars line))[1]? with
      | none => none
      | some _ =>
        match (splitOnSub ':' [' '] ((splitOnSub ',' [' '] (trimChars line)).headD []))[1]? with
        | none => none
        | some _ => parseIdxSizeGo rest st
    else parseIdxSizeGo rest st

def parseIdxSize (content : List Char) : Option (Option JsSize) :=
  parseIdxSizeGo (splitChar '\n' content) none

/-- The dimensions `extractSubtitleFrames` renders with:
`this.metadata.size || { width: 720, height: 480 }`. -/
def extractFramesDims (size : Option JsSize) : JsSize :=
  size.getD { width := some 720, height := some 480 }

/-- One attempt of the library regex `/size:\s*(\d+)x(\d+)/` anchored at
the head of `l`. -/
def matchSizeAt (l : List Char) : Option (Nat × Nat) :=
  if ("size:".data).isPrefixOf l then
    let afterWs := (l.drop 5).dropWhile isJsSpace
    let ds1 := afterWs.takeWhile Char.isDigit
    if ds1.isEmpty then none
    else
      match afterWs.dropWhile Char.isDigit with
      | 'x' :: rest2 =>
        let ds2 := rest2.takeWhile Char.isDigit
        if ds2.isEmpty then none else some (fromDec ds1, fromDec ds2)
      | _ => none
  else none

/-- `content.match(/size:\s*(\d+)x(\d+)/)`: first match over all start
positions.  The library `parse` stores `width`/`height` only when this
returns a match; otherwise `this.metadata` keeps no size at all. -/
def sizeRegexSearch : List Char → Option (Nat × Nat)
  | [] => none
  | c :: rest =>
    match matchSizeAt (c :: rest) with
    | some r => some r
    | none => sizeRegexSearch rest

/-- Statement glue for the idempotence proof: two adjacent characters
are never both whitespace. -/
def noTwoSpaces (a b : Char) : Prop := isJsSpace a = false ∨ isJsSpace b = false

/-! # Theorems -/

/-! ## C1: the end-to-end example (library path)

Running the library merge and serializer on the example timeline
`[{index 0, 1000→4000}, {index 1, 5000, unclosed → 8000}]` with
recognition results `["Hello world", ""]` produces one record — but its
index line is `0`, the timeline's own 0-based slot index, because
neither `processFrames` nor `generate` renumbers entries.  The claimed
index line `1` does not occur. -/

/-- C1: evaluated at the spec's end-to-end example, the library path
keeps exactly one record with time line `00:00:01,000 --> 00:00:04,000`
and text `Hello world`, but writes index line `0`, not the claimed `1`. -/
theorem c1_end_to_end_library_output :
    processFramesResults [⟨0, 1000, 4000⟩, ⟨1, 5000, 8000⟩] ["Hello world".data, "".data] =
      some [⟨0, 1000, 4000, "Hello world".data⟩] ∧
    generate [⟨0, 1000, 4000, "Hello world".data⟩] =
      "0\n00:00:01,000 --> 00:00:04,000\nHello world\n".data ∧
    generate [⟨0, 1000, 4000, "Hello world".data⟩] ≠
      "1\n00:00:01,000 --> 00:00:04,000\nHello world\n".data := by
  refine ⟨by decide, by decide, by decide⟩

/-! ## C3: positional alignment of the library merge

`processFrames` filters the empty cleaned texts *before* indexing them
by timeline position, so an empty slot shifts every later text one slot
to the left.  With recognition results `["", "Hello world"]` the text of
slot 1 lands on timeline entry 0 (1000→4000) and entry 1 is dropped. -/

/-- C3: evaluated at recognition results `["", "Hello world"]`, the
library merge attaches slot 1's text to timeline entry 0 and drops
entry 1 — the surviving entry does not carry its own slot's text. -/
theorem c3_positional_misalignment_eval :
    processFramesResults [⟨0, 1000, 4000⟩, ⟨1, 5000, 8000⟩] ["".data, "Hello world".data] =
      some [⟨0, 1000, 4000, "Hello world".data⟩] ∧
    cleanOcrText "".data = [] := by
  refine ⟨by decide, by decide⟩

/-! ## C2: empty-text exclusion and renumbering

The claim fails on the library merge: a cleaned text of length 1 (below
the claimed two-character threshold) survives `processFrames`, and the
surviving entry keeps the timeline's 0-based index instead of being
renumbered from 1.  The legacy CLI merge does satisfy the claim; that is
the amended statement proved afterwards. -/

/-- C2 counterexample: in the library merge a slot whose cleaned,
trimmed text is the single character `a` (length 1 < 2) still produces
an `SrtEntry`, and that entry's index is the timeline index `0`, not a
contiguous renumbering from 1. -/
theorem c2_counterexample :
    processFramesResults [⟨0, 1000, 4000⟩] ["a".data] =
      some [⟨0, 1000, 4000, "a".data⟩] ∧
    (trimChars (cleanOcrText "a".data)).length < 2 ∧
    [⟨0, 1000, 4000, "a".data⟩].map SrtEntry.index ≠ [1] := by
  refine ⟨by decide, by decide, by decide⟩

/-! ## C6: idempotence of the cleaning transform

The strategy: every string in the image of `cleanOcrText` consists of
kept characters only (none of which is a substitution key), its only
whitespace is isolated single ASCII spaces, and it neither starts nor
ends with whitespace — and on such strings every stage of the cleaner is
the identity. -/

theorem mem_collapseGo {c : Char} :
    ∀ (b : Bool) (l : List Char), c ∈ collapseGo b l → c = ' ' ∨ c ∈ l := by
  intro b l
  induction l generalizing b with
  | nil => simp [collapseGo]
  | cons d rest ih =>
    simp only [collapseGo]
    split
    · split
      · intro h
        rcases ih true h with h | h
        · exact Or.inl h
        · exact Or.inr (List.mem_cons_of_mem _ h)
      · intro h
        rcases List.mem_cons.mp h with rfl | h
        · exact Or.inl rfl
        · rcases ih true h with h | h
          · exact Or.inl h
          · exact Or.inr (List.mem_cons_of_mem _ h)
    · intro h
      rcases List.mem_cons.mp h with rfl | h
      · exact Or.inr (List.mem_cons_self _ _)
      · rcases ih false h with h | h
        · exact Or.inl h
        · exact Or.inr (List.mem_cons_of_mem _ h)

theorem space_collapseGo {c : Char} :
    ∀ (b : Bool) (l : List Char), c ∈ collapseGo b l → isJsSpace c = true → c = ' ' := by
  intro b l
  induction l generalizing b with
  | nil => simp [collapseGo]
  | cons d rest ih =>
    simp only [collapseGo]
    split
    · split
      · exact fun h hs => ih true h hs
      · intro h hs
        rcases List.mem_cons.mp h with rfl | h
        · rfl
        · exact ih true h hs
    · intro h hs
      rcases List.mem_cons.mp h with rfl | h
      · simp_all
      · exact ih false h hs

theorem head_collapseGo_true {c : Char} :
    ∀ l : List Char, (collapseGo true l).head? = some c → isJsSpace c = false := by
  intro l
  induction l with
  | nil => simp [collapseGo]
  | cons d rest ih =>
    simp only [collapseGo]
    split
    · exact ih
    · intro h
      simp only [List.head?_cons, Option.some.injEq] at h
      subst h
      simp_all

theorem chain_collapseGo :
    ∀ (b : Bool) (l : List Char), List.Chain' noTwoSpaces (collapseGo b l) := by
  intro b l
  induction l generalizing b with
  | nil => simp [collapseGo]
  | cons d rest ih =>
    simp only [collapseGo]
    split
    · split
      · exact ih true
      · refine List.chain'_cons'.mpr ⟨fun y hy => ?_, ih true⟩
        exact Or.inr (head_collapseGo_true rest hy)
    · refine List.chain'_cons'.mpr ⟨fun y hy => ?_, ih false⟩
      exact Or.inl (by simp_all)

theorem mem_dropTrailing {p : Char → Bool} {c : Char} :
    ∀ l : List Char, c ∈ dropTrailing p l → c ∈ l := by
  intro l
  induction l with
  | nil => simp [dropTrailing]
  | cons d rest ih =>
    simp only [dropTrailing]
    split
    · split
      · simp
      · intro h
        simp_all
    · intro h
      rcases List.mem_cons.mp h with rfl | h
      · exact List.mem_cons_self _ _
      · refine List.mem_cons_of_mem _ (ih ?_)
        simp_all

theorem head_dropTrailing {p : Char → Bool} {c : Char} :
    ∀ l : List Char, (dropTrailing p l).head? = some c → l.head? = some c := by
  intro l
  induction l with
  | nil => simp [dropTrailing]
  | cons d rest ih =>
    simp only [dropTrailing]
    split
    · split
      · simp
      · simp
    · intro h
      simp_all

theorem getLast_dropTrailing {p : Char → Bool} {c : Char} :
    ∀ l : List Char, (dropTrailing p l).getLast? = some c → p c = false := by
  intro l
  induction l with
  | nil => simp [dropTrailing]
  | cons d rest ih =>
    simp only [dropTrailing]
    split
    · split
      · simp
      · intro h
        simp only [List.getLast?_singleton, Option.some.injEq] at h
        subst h
        simp_all
    · intro h
      rw [List.getLast?_cons_cons] at h
      apply ih
      simp_all

theorem chain_dropTrailing {p : Char → Bool} :
    ∀ l : List Char, List.Chain' noTwoSpaces l →
      List.Chain' noTwoSpaces (dropTrailing p l) := by
  intro l
  induction l with
  | nil => simp [dropTrailing]
  | cons d rest ih =>
    intro hch
    simp only [dropTrailing]
    split
    · split
      · exact List.chain'_nil
      · exact List.chain'_singleton _
    · rename_i heq
      have hrest := (List.chain'_cons'.mp hch).2
      have htail := ih hrest
      rw [heq] at htail
      refine List.chain'_cons'.mpr ⟨fun y hy => ?_, htail⟩
      simp only [List.head?_cons, Option.mem_def, Option.some.injEq] at hy
      have hh : rest.head? = some y := head_dropTrailing rest (by rw [heq]; simp [hy])
      exact (List.chain'_cons'.mp hch).1 y (by rw [hh]; rfl)

theorem mem_trimChars {c : Char} (l : List Char) (h : c ∈ trimChars l) : c ∈ l :=
  (List.dropWhile_suffix isJsSpace).subset (mem_dropTrailing _ h)

theorem head_dropWhile_false {p : Char → Bool} {c : Char} :
    ∀ l : List Char, (l.dropWhile p).head? = some c → p c = false := by
  intro l
  induction l with
  | nil => simp
  | cons d rest ih =>
    rw [List.dropWhile_cons]
    split
    · exact ih
    · intro h
      simp only [List.head?_cons, Option.some.injEq] at h
      subst h
      simp_all

theorem head_trimChars {c : Char} (l : List Char) (h : (trimChars l).head? = some c) :
    isJsSpace c = false :=
  head_dropWhile_false l (head_dropTrailing _ h)

theorem getLast_trimChars {c : Char} (l : List Char) (h : (trimChars l).getLast? = some c) :
    isJsSpace c = false :=
  getLast_dropTrailing _ h

theorem chain_trimChars (l : List Char) (h : List.Chain' noTwoSpaces l) :
    List.Chain' noTwoSpaces (trimChars l) :=
  chain_dropTrailing _ (h.suffix (List.dropWhile_suffix isJsSpace))

theorem dropWhile_id_of_head {p : Char → Bool} (l : List Char)
    (h : ∀ c, l.head? = some c → p c = false) : l.dropWhile p = l := by
  cases l with
  | nil => rfl
  | cons d rest =>
    rw [List.dropWhile_cons]
    simp [h d rfl]

theorem dropTrailing_id {p : Char → Bool} :
    ∀ l : List Char, (∀ c, l.getLast? = some c → p c = false) → dropTrailing p l = l := by
  intro l
  induction l with
  | nil => intro _; rfl
  | cons d rest ih =>
    intro h
    simp only [dropTrailing]
    cases hr : rest with
    | nil =>
      simp only [dropTrailing]
      have := h d (by simp [hr])
      simp [this]
    | cons e r =>
      have hrest : dropTrailing p rest = rest := by
        apply ih
        intro c hc
        apply h
        rw [hr] at hc ⊢
        rw [List.getLast?_cons_cons]
        exact hc
      rw [hr] at hrest
      rw [hrest]

theorem trimChars_id (l : List Char)
    (hh : ∀ c, l.head? = some c → isJsSpace c = false)
    (hl : ∀ c, l.getLast? = some c → isJsSpace c = false) : trimChars l = l := by
  unfold trimChars
  rw [dropWhile_id_of_head l hh]
  exact dropTrailing_id l hl

theorem collapseGo_true_eq_false (l : List Char)
    (h : ∀ c, l.head? = some c → isJsSpace c = false) :
    collapseGo true l = collapseGo false l := by
  cases l with
  | nil => rfl
  | cons d rest =>
    have := h d rfl
    simp [collapseGo, this]

theorem collapseGo_false_id :
    ∀ l : List Char, (∀ c ∈ l, isJsSpace c = true → c = ' ') →
      List.Chain' noTwoSpaces l → collapseGo false l = l := by
  intro l
  induction l with
  | nil => intro _ _; rfl
  | cons d rest ih =>
    intro hsp hch
    by_cases hd : isJsSpace d = true
    · have hd' : d = ' ' := hsp d (List.mem_cons_self _ _) hd
      have hhead : ∀ c, rest.head? = some c → isJsSpace c = false := by
        intro c hc
        rcases (List.chain'_cons'.mp hch).1 c (by rw [hc]; rfl) with h | h
        · rw [h] at hd; cases hd
        · exact h
      have : collapseGo true rest = rest := by
        rw [collapseGo_true_eq_false rest hhead]
        exact ih (fun c hc => hsp c (List.mem_cons_of_mem _ hc)) (List.chain'_cons'.mp hch).2
      simp [collapseGo, hd', this, show isJsSpace ' ' = true from by decide]
    · have : collapseGo false rest = rest :=
        ih (fun c hc => hsp c (List.mem_cons_of_mem _ hc)) (List.chain'_cons'.mp hch).2
      simp [collapseGo, hd, this]

theorem replacePass_id {key : Char} {repl : List Char} :
    ∀ l : List Char, (∀ c ∈ l, c ≠ key) → replacePass key repl l = l := by
  intro l
  induction l with
  | nil => intro _; rfl
  | cons d rest ih =>
    intro h
    have hd : d ≠ key := h d (List.mem_cons_self _ _)
    simp only [replacePass, List.flatMap_cons, if_neg hd]
    rw [show rest.flatMap (fun c => if c = key then repl else [c]) =
          replacePass key repl rest from rfl,
        ih fun c hc => h c (List.mem_cons_of_mem _ hc)]
    rfl

theorem foldl_replacePass_id (tbl : List (Char × List Char)) :
    ∀ l : List Char, (∀ p ∈ tbl, ∀ c ∈ l, c ≠ p.1) →
      tbl.foldl (fun acc p => replacePass p.1 p.2 acc) l = l := by
  induction tbl with
  | nil => intro l _; rfl
  | cons q rest ih =>
    intro l h
    rw [List.foldl_cons, replacePass_id l (h q (List.mem_cons_self _ _))]
    exact ih l fun p hp c hc => h p (List.mem_cons_of_mem _ hp) c hc

theorem applyReplacements_id (l : List Char) (h : ∀ c ∈ l, keepChar c = true) :
    applyReplacements l = l := by
  have hkeys : ∀ p ∈ replacementTable, keepChar p.1 = false := by decide
  apply foldl_replacePass_id
  intro p hp c hc heq
  have := h c hc
  rw [heq] at this
  rw [hkeys p hp] at this
  cases this

/-- C6: cleaning is idempotent — `cleanOcrText (cleanOcrText s) =
cleanOcrText s` for every string `s`.  Once cleaned, a string contains
only kept characters (none of which is a substitution key, so the
substitution pass is the identity), its whitespace is isolated single
spaces (so collapsing is the identity), and it has no leading or
trailing whitespace (so trimming is the identity). -/
theorem c6_clean_idempotent (l : List Char) :
    cleanOcrText (cleanOcrText l) = cleanOcrText l := by
  by_cases hl : l = []
  · subst hl; rfl
  · have hmkeep : ∀ c ∈ (applyReplacements l).filter keepChar, keepChar c = true :=
      fun c hc => (List.mem_filter.mp hc).2
    have hr : cleanOcrText l =
        trimChars (collapseGo false ((applyReplacements l).filter keepChar)) := by
      simp [cleanOcrText, hl, collapseWs]
    rw [hr]
    revert hmkeep
    generalize (applyReplacements l).filter keepChar = m
    intro hmkeep
    by_cases hre : trimChars (collapseGo false m) = []
    · rw [hre]; rfl
    · have hkeep : ∀ c ∈ trimChars (collapseGo false m), keepChar c = true := by
        intro c hc
        rcases mem_collapseGo false m (mem_trimChars _ hc) with h | h
        · subst h; decide
        · exact hmkeep c h
      have hsp : ∀ c ∈ trimChars (collapseGo false m), isJsSpace c = true → c = ' ' :=
        fun c hc hs => space_collapseGo false m (mem_trimChars _ hc) hs
      have hch : List.Chain' noTwoSpaces (trimChars (collapseGo false m)) :=
        chain_trimChars _ (chain_collapseGo false m)
      have hh : ∀ c, (trimChars (collapseGo false m)).head? = some c → isJsSpace c = false :=
        fun c h => head_trimChars _ h
      have hlast : ∀ c, (trimChars (collapseGo false m)).getLast? = some c →
          isJsSpace c = false :=
        fun c h => getLast_trimChars _ h
      unfold cleanOcrText collapseWs
      rw [if_neg hre]
      rw [applyReplacements_id _ hkeep]
      rw [List.filter_eq_self.mpr hkeep]
      rw [collapseGo_false_id _ hsp hch]
      exact trimChars_id _ hh hlast

/-! ## C7: SRT timestamp round-trip -/

theorem digitChar_isDigit (n : Nat) : (digitChar n).isDigit = true := by
  unfold digitChar
  split <;> decide

theorem digitVal_digitChar (n : Nat) (h : n < 10) : digitVal (digitChar n) = n := by
  interval_cases n <;> decide

theorem toDecFuel_digits :
    ∀ (fuel n : Nat), ∀ c ∈ toDecFuel fuel n, c.isDigit = true := by
  intro fuel
  induction fuel with
  | zero => simp [toDecFuel]
  | succ fuel ih =>
    intro n c hc
    simp only [toDecFuel] at hc
    split at hc
    · rcases List.mem_singleton.mp hc with rfl
      exact digitChar_isDigit n
    · rcases List.mem_append.mp hc with h | h
      · exact ih _ c h
      · rcases List.mem_singleton.mp h with rfl
        exact digitChar_isDigit _

theorem toDec_digits (n : Nat) : ∀ c ∈ toDec n, c.isDigit = true :=
  toDecFuel_digits (n + 1) n

theorem toDecFuel_ne_nil (fuel n : Nat) (h : 0 < fuel) : toDecFuel fuel n ≠ [] := by
  cases fuel with
  | zero => omega
  | succ fuel =>
    simp only [toDecFuel]
    split
    · simp
    · simp

theorem fromDecFrom_append (a : Nat) (x y : List Char) :
    fromDecFrom a (x ++ y) = fromDecFrom (fromDecFrom a x) y := by
  simp [fromDecFrom, List.foldl_append]

theorem fromDecFrom_toDecFuel :
    ∀ (fuel n a : Nat), n < fuel →
      fromDecFrom a (toDecFuel fuel n) = a * 10 ^ (toDecFuel fuel n).length + n := by
  intro fuel
  induction fuel with
  | zero => omega
  | succ fuel ih =>
    intro n a hn
    simp only [toDecFuel]
    split
    · rename_i h10
      simp [fromDecFrom, digitVal_digitChar n h10]
    · rename_i h10
      push_neg at h10
      have hdiv : n / 10 < fuel := by
        have := Nat.div_lt_self (show 0 < n by omega) (show 1 < 10 by omega)
        omega
      rw [fromDecFrom_append, ih (n / 10) a hdiv]
      have hmod : digitVal (digitChar (n % 10)) = n % 10 :=
        digitVal_digitChar _ (Nat.mod_lt _ (by omega))
      simp only [fromDecFrom, List.foldl_cons, List.foldl_nil, List.length_append,
        List.length_singleton]
      rw [hmod, pow_succ]
      have : 10 * (n / 10) + n % 10 = n := Nat.div_add_mod n 10
      ring_nf
      omega

theorem fromDecFrom_zeros (a : Nat) :
    ∀ k : Nat, fromDecFrom a (List.replicate k '0') = a * 10 ^ k := by
  intro k
  induction k generalizing a with
  | zero => simp [fromDecFrom]
  | succ k ih =>
    rw [List.replicate_succ]
    show fromDecFrom (a * 10 + digitVal '0') (List.replicate k '0') = a * 10 ^ (k + 1)
    rw [ih]
    have : digitVal '0' = 0 := by decide
    rw [this, pow_succ]
    ring

theorem fromDec_padStart_toDec (x n : Nat) :
    fromDec (padStartC (toDec x) n '0') = x := by
  unfold fromDec padStartC
  rw [fromDecFrom_append, fromDecFrom_zeros, Nat.zero_mul]
  show fromDecFrom 0 (toDecFuel (x + 1) x) = x
  rw [fromDecFrom_toDecFuel (x + 1) x 0 (by omega)]
  ring

theorem padStartC_length (l : List Char) (n : Nat) (c : Char) :
    (padStartC l n c).length = max n l.length := by
  simp [padStartC]
  omega

theorem toDecFuel_length_le :
    ∀ (fuel n k : Nat), n < fuel → n < 10 ^ k → 0 < k →
      (toDecFuel fuel n).length ≤ k := by
  intro fuel
  induction fuel with
  | zero => omega
  | succ fuel ih =>
    intro n k hfuel hk hk0
    simp only [toDecFuel]
    split
    · simpa using hk0
    · rename_i h10
      push_neg at h10
      have hk2 : 2 ≤ k := by
        by_contra hcon
        have hk1 : k = 1 := by omega
        subst hk1
        simp only [pow_one] at hk
        omega
      have hdiv : n / 10 < fuel := by
        have := Nat.div_lt_self (show 0 < n by omega) (show 1 < 10 by omega)
        omega
      have hdivpow : n / 10 < 10 ^ (k - 1) := by
        rw [Nat.div_lt_iff_lt_mul (by omega)]
        have : 10 ^ (k - 1) * 10 = 10 ^ k := by
          rw [← pow_succ]
          congr 1
          omega
        omega
      have := ih (n / 10) (k - 1) hdiv hdivpow (by omega)
      simp only [List.length_append, List.length_singleton]
      omega

theorem mem_padStartC {c : Char} {l : List Char} {n : Nat} {z : Char}
    (h : c ∈ padStartC l n z) : c = z ∨ c ∈ l := by
  rcases List.mem_append.mp h with h | h
  · exact Or.inl (List.eq_of_mem_replicate h)
  · exact Or.inr h

theorem splitChar_ne_nil (sep : Char) : ∀ l : List Char, splitChar sep l ≠ [] := by
  intro l
  cases l with
  | nil => simp [splitChar]
  | cons c rest =>
    simp only [splitChar]
    split
    · simp
    · split
      · simp
      · simp

theorem splitChar_not_mem {sep : Char} :
    ∀ l : List Char, sep ∉ l → splitChar sep l = [l] := by
  intro l
  induction l with
  | nil => intro _; rfl
  | cons c rest ih =>
    intro h
    have hc : c ≠ sep := fun heq => h (heq ▸ List.mem_cons_self _ _)
    have hrest : sep ∉ rest := fun hm => h (List.mem_cons_of_mem _ hm)
    simp only [splitChar, if_neg hc, ih hrest]

theorem splitChar_append {sep : Char} :
    ∀ (a b : List Char), sep ∉ a →
      splitChar sep (a ++ sep :: b) = a :: splitChar sep b := by
  intro a
  induction a with
  | nil =>
    intro b _
    simp [splitChar]
  | cons c a' ih =>
    intro b h
    have hc : c ≠ sep := fun heq => h (heq ▸ List.mem_cons_self _ _)
    have ha' : sep ∉ a' := fun hm => h (List.mem_cons_of_mem _ hm)
    simp only [List.cons_append, splitChar, if_neg hc, List.append_eq, ih b ha']

theorem padStartC_digits (x n : Nat) :
    ∀ c ∈ padStartC (toDec x) n '0', c.isDigit = true := by
  intro c hc
  rcases mem_padStartC hc with rfl | hc
  · decide
  · exact toDec_digits x c hc

theorem padStartC_no_colon (x n : Nat) : ':' ∉ padStartC (toDec x) n '0' := by
  intro hc
  exact absurd (padStartC_digits x n ':' hc) (by decide)

theorem padStartC_no_comma (x n : Nat) : ',' ∉ padStartC (toDec x) n '0' := by
  intro hc
  exact absurd (padStartC_digits x n ',' hc) (by decide)

theorem padStartC_toDec_ne_nil (x n : Nat) : padStartC (toDec x) n '0' ≠ [] := by
  intro h
  have h2 : padStartC (toDec x) n '0' = List.replicate (n - (toDec x).length) '0' ++
      toDecFuel (x + 1) x := rfl
  rw [h] at h2
  have := toDecFuel_ne_nil (x + 1) x (by omega)
  rcases List.append_eq_nil.mp h2.symm with ⟨_, h4⟩
  exact this h4

/-- C7: formatting a millisecond value and parsing it back with the
inverse `HH:MM:SS,mmm` decomposition recovers the value exactly; the
milliseconds field has exactly three (zero-padded) digits and the hours
field at least two. -/
theorem c7_timestamp_round_trip (t : Nat) :
    parseSrtTimestamp (formatSrtTimestamp t) = some t ∧
    ((splitChar ',' (formatSrtTimestamp t)).getLastD []).length = 3 ∧
    2 ≤ ((splitChar ':' (formatSrtTimestamp t)).headD []).length := by
  have hfmt : formatSrtTimestamp t =
      padStartC (toDec (t / 3600000)) 2 '0' ++
      ':' :: (padStartC (toDec (t % 3600000 / 60000)) 2 '0' ++
      ':' :: (padStartC (toDec (t % 60000 / 1000)) 2 '0' ++
      ',' :: padStartC (toDec (t % 1000)) 3 '0')) := by
    simp [formatSrtTimestamp]
  have hRnoColon : ':' ∉ padStartC (toDec (t % 60000 / 1000)) 2 '0' ++
      ',' :: padStartC (toDec (t % 1000)) 3 '0' := by
    intro h
    rcases List.mem_append.mp h with h | h
    · exact padStartC_no_colon _ _ h
    · rcases List.mem_cons.mp h with h | h
      · cases h
      · exact padStartC_no_colon _ _ h
  have hsplit1 : splitChar ':' (formatSrtTimestamp t) =
      [padStartC (toDec (t / 3600000)) 2 '0',
       padStartC (toDec (t % 3600000 / 60000)) 2 '0',
       padStartC (toDec (t % 60000 / 1000)) 2 '0' ++
         ',' :: padStartC (toDec (t % 1000)) 3 '0'] := by
    rw [hfmt, splitChar_append _ _ (padStartC_no_colon _ _),
        splitChar_append _ _ (padStartC_no_colon _ _),
        splitChar_not_mem _ hRnoColon]
  have hsplit2 : splitChar ',' (padStartC (toDec (t % 60000 / 1000)) 2 '0' ++
      ',' :: padStartC (toDec (t % 1000)) 3 '0') =
      [padStartC (toDec (t % 60000 / 1000)) 2 '0',
       padStartC (toDec (t % 1000)) 3 '0'] := by
    rw [splitChar_append _ _ (padStartC_no_comma _ _),
        splitChar_not_mem _ (padStartC_no_comma _ _)]
  have hguard : ∀ (x n : Nat), (padStartC (toDec x) n '0').isEmpty = false := by
    intro x n
    have hne := padStartC_toDec_ne_nil x n
    cases h : padStartC (toDec x) n '0' with
    | nil => exact absurd h hne
    | cons a l => rfl
  have hall : ∀ (x n : Nat), (padStartC (toDec x) n '0').all Char.isDigit = true :=
    fun x n => List.all_eq_true.mpr (padStartC_digits x n)
  refine ⟨?_, ?_, ?_⟩
  · simp only [parseSrtTimestamp, hsplit1, hsplit2, hguard, hall, Bool.not_false,
      Bool.and_true, Bool.true_and, if_true, fromDec_padStart_toDec]
    congr 1
    have e1 := Nat.div_add_mod t 3600000
    have e2 := Nat.div_add_mod (t % 3600000) 60000
    have e3 : t % 3600000 % 60000 = t % 60000 := Nat.mod_mod_of_dvd t (by norm_num)
    have e4 := Nat.div_add_mod (t % 60000) 1000
    have e5 : t % 60000 % 1000 = t % 1000 := Nat.mod_mod_of_dvd t (by norm_num)
    omega
  · have hfmt2 : formatSrtTimestamp t =
        (padStartC (toDec (t / 3600000)) 2 '0' ++
         ':' :: (padStartC (toDec (t % 3600000 / 60000)) 2 '0' ++
         ':' :: padStartC (toDec (t % 60000 / 1000)) 2 '0')) ++
        ',' :: padStartC (toDec (t % 1000)) 3 '0' := by
      rw [hfmt]
      simp [List.append_assoc]
    have hprefNoComma : ',' ∉ padStartC (toDec (t / 3600000)) 2 '0' ++
        ':' :: (padStartC (toDec (t % 3600000 / 60000)) 2 '0' ++
        ':' :: padStartC (toDec (t % 60000 / 1000)) 2 '0') := by
      intro h
      rcases List.mem_append.mp h with h | h
      · exact padStartC_no_comma _ _ h
      · rcases List.mem_cons.mp h with h | h
        · cases h
        · rcases List.mem_append.mp h with h | h
          · exact padStartC_no_comma _ _ h
          · rcases List.mem_cons.mp h with h | h
            · cases h
            · exact padStartC_no_comma _ _ h
    rw [hfmt2, splitChar_append _ _ hprefNoComma,
        splitChar_not_mem _ (padStartC_no_comma _ _)]
    simp only [List.getLastD_cons, List.getLastD_nil]
    rw [padStartC_length]
    have : (toDec (t % 1000)).length ≤ 3 := by
      apply toDecFuel_length_le
      · omega
      · have : t % 1000 < 1000 := Nat.mod_lt _ (by omega)
        norm_num
        omega
      · omega
    omega
  · rw [hsplit1]
    simp only [List.headD_cons]
    rw [padStartC_length]
    omega

/-! ## C5: the wrapping bound

The claimed per-line bound is false: a word longer than `maxLength`
that arrives while the current line is non-empty is adopted as the new
current line whole and later emitted whole, with no hyphen break (the
hyphen branch only runs when the current line is empty).  The two-line
bound does hold for every newline-free input, for every run of the
wrapper that terminates. -/

theorem mem_of_mem_splitChar {sep c : Char} :
    ∀ (l : List Char) (w : List Char), w ∈ splitChar sep l → c ∈ w → c ∈ l := by
  intro l
  induction l with
  | nil =>
    intro w hw hc
    simp only [splitChar, List.mem_singleton] at hw
    subst hw
    cases hc
  | cons d rest ih =>
    intro w hw hc
    simp only [splitChar] at hw
    split at hw
    · rcases List.mem_cons.mp hw with rfl | hw
      · cases hc
      · exact List.mem_cons_of_mem _ (ih w hw hc)
    · rename_i hd
      rcases hsp : splitChar sep rest with _ | ⟨w0, ws⟩
      · exact absurd hsp (splitChar_ne_nil sep rest)
      · rw [hsp] at hw
        rcases List.mem_cons.mp hw with rfl | hw
        · rcases List.mem_cons.mp hc with rfl | hc
          · exact List.mem_cons_self _ _
          · have hw0 : w0 ∈ splitChar sep rest := by rw [hsp]; exact List.mem_cons_self _ _
            exact List.mem_cons_of_mem _ (ih w0 hw0 hc)
        · have hwm : w ∈ splitChar sep rest := by rw [hsp]; exact List.mem_cons_of_mem _ hw
          exact List.mem_cons_of_mem _ (ih w hwm hc)

theorem sep_not_mem_splitChar {sep : Char} :
    ∀ (l : List Char) (w : List Char), w ∈ splitChar sep l → sep ∉ w := by
  intro l
  induction l with
  | nil =>
    intro w hw
    simp only [splitChar, List.mem_singleton] at hw
    subst hw
    simp
  | cons d rest ih =>
    intro w hw
    simp only [splitChar] at hw
    split at hw
    · rcases List.mem_cons.mp hw with rfl | hw
      · simp
      · exact ih w hw
    · rename_i hd
      rcases hsp : splitChar sep rest with _ | ⟨w0, ws⟩
      · exact absurd hsp (splitChar_ne_nil sep rest)
      · rw [hsp] at hw
        rcases List.mem_cons.mp hw with rfl | hw
        · intro hmem
          rcases List.mem_cons.mp hmem with heq | hmem
          · exact hd heq.symm
          · have hw0 : w0 ∈ splitChar sep rest := by rw [hsp]; exact List.mem_cons_self _ _
            exact ih w0 hw0 hmem
        · have hwm : w ∈ splitChar sep rest := by rw [hsp]; exact List.mem_cons_of_mem _ hw
          exact ih w hwm

theorem headD_splitChar_not_sep (sep : Char) (l : List Char) :
    sep ∉ (splitChar sep l).headD [] := by
  rcases hsp : splitChar sep l with _ | ⟨w0, ws⟩
  · exact absurd hsp (splitChar_ne_nil sep l)
  · have hw0 : w0 ∈ splitChar sep l := by rw [hsp]; exact List.mem_cons_self _ _
    simpa using sep_not_mem_splitChar l w0 hw0

theorem not_mem_joinChar {sep c : Char} (hne : c ≠ sep) :
    ∀ ws : List (List Char), (∀ w ∈ ws, c ∉ w) → c ∉ joinChar sep ws := by
  intro ws
  induction ws with
  | nil => intro _; simp [joinChar]
  | cons w rest ih =>
    intro h
    cases rest with
    | nil => simpa [joinChar] using h w (List.mem_cons_self _ _)
    | cons w2 rest2 =>
      show c ∉ w ++ sep :: joinChar sep (w2 :: rest2)
      intro hmem
      rcases List.mem_append.mp hmem with hm | hm
      · exact h w (List.mem_cons_self _ _) hm
      · rcases List.mem_cons.mp hm with heq | hm
        · exact hne heq
        · exact ih (fun v hv => h v (List.mem_cons_of_mem _ hv)) hm

theorem wrapStep_nlFree (maxLength : Nat) (st : List (List Char) × List Char)
    (word : List Char) (hl : ∀ w ∈ st.1, '\n' ∉ w) (hc : '\n' ∉ st.2)
    (hw : '\n' ∉ word) :
    (∀ w ∈ (wrapStep maxLength st word).1, '\n' ∉ w) ∧
      '\n' ∉ (wrapStep maxLength st word).2 := by
  simp only [wrapStep]
  split
  · split
    · refine ⟨?_, hw⟩
      intro w hwm
      rcases List.mem_append.mp hwm with hm | hm
      · exact hl w hm
      · rcases List.mem_singleton.mp hm with rfl
        intro hmem
        exact hc (mem_trimChars _ hmem)
    · split
      · refine ⟨?_, fun hmem => hw (List.drop_subset _ _ hmem)⟩
        intro w hwm
        rcases List.mem_append.mp hwm with hm | hm
        · exact hl w hm
        · rcases List.mem_singleton.mp hm with rfl
          intro hmem
          rcases List.mem_append.mp hmem with hm | hm
          · exact hw (List.take_subset _ _ hm)
          · simp at hm
      · exact ⟨hl, hw⟩
  · split
    · refine ⟨hl, ?_⟩
      intro hmem
      rcases List.mem_append.mp hmem with hm | hm
      · exact hc hm
      · rcases List.mem_cons.mp hm with heq | hm
        · cases heq
        · exact hw hm
    · exact ⟨hl, hw⟩

theorem foldl_wrapStep_nlFree (maxLength : Nat) :
    ∀ (words : List (List Char)) (st : List (List Char) × List Char),
      (∀ w ∈ words, '\n' ∉ w) → (∀ w ∈ st.1, '\n' ∉ w) → '\n' ∉ st.2 →
      (∀ w ∈ (words.foldl (wrapStep maxLength) st).1, '\n' ∉ w) ∧
        '\n' ∉ (words.foldl (wrapStep maxLength) st).2 := by
  intro words
  induction words with
  | nil => exact fun st _ hl hc => ⟨hl, hc⟩
  | cons w rest ih =>
    intro st hws hl hc
    rw [List.foldl_cons]
    have hstep := wrapStep_nlFree maxLength st w hl hc (hws w (List.mem_cons_self _ _))
    exact ih _ (fun v hv => hws v (List.mem_cons_of_mem _ hv)) hstep.1 hstep.2

/-- C5 (amended): for every newline-free input string and every
`maxLength ≥ 1`, every terminating run of the wrapper (any fuel; `none`
is a non-terminating run) produces at most two newline-delimited
lines. -/
theorem c5_wrap_two_lines (fuel : Nat) (text : List Char) (maxLength : Nat)
    (out : List Char) (_hmax : 1 ≤ maxLength) (hnl : '\n' ∉ text)
    (hout : wrapGo fuel text maxLength = some out) :
    (splitChar '\n' out).length ≤ 2 := by
  cases fuel with
  | zero => cases hout
  | succ fuel =>
    simp only [wrapGo] at hout
    split at hout
    · rename_i hbase
      have hto : text = out := by injection hout
      subst hto
      rw [splitChar_not_mem _ hnl]
      simp
    · have hwords : ∀ w ∈ splitChar ' ' text, '\n' ∉ w := by
        intro w hw hmem
        exact hnl (mem_of_mem_splitChar text w hw hmem)
      have hst := foldl_wrapStep_nlFree maxLength (splitChar ' ' text) ([], [])
        hwords (by simp) (by simp)
      set st := (splitChar ' ' text).foldl (wrapStep maxLength) ([], []) with hstdef
      have hlines : ∀ w ∈ (if st.2.length > 0 then st.1 ++ [trimChars st.2] else st.1),
          '\n' ∉ w := by
        split
        · intro w hw
          rcases List.mem_append.mp hw with hm | hm
          · exact hst.1 w hm
          · rcases List.mem_singleton.mp hm with rfl
            exact fun hmem => hst.2 (mem_trimChars _ hmem)
        · exact hst.1
      set lines := (if st.2.length > 0 then st.1 ++ [trimChars st.2] else st.1) with hldef
      split at hout
      · rename_i hlong
        split at hout
        · cases hout
        · rename_i w hw
          have hBnl : '\n' ∉ (splitChar '\n' w).headD [] := headD_splitChar_not_sep '\n' w
          have hAnl : '\n' ∉ lines.headD [] := by
            cases hl : lines with
            | nil => rw [hl] at hlong; simp at hlong
            | cons a l =>
              have := hlines a (by rw [hl]; exact List.mem_cons_self _ _)
              simpa [hl] using this
          have hoeq : lines.headD [] ++ '\n' :: (splitChar '\n' w).headD [] = out := by
            injection hout
          rw [← hoeq, splitChar_append _ _ hAnl, splitChar_not_mem _ hBnl]
          simp
      · rename_i hshort
        have hoeq : joinChar '\n' lines = out := by injection hout
        rcases hl : lines with _ | ⟨w1, _ | ⟨w2, rest⟩⟩
        · rw [hl] at hoeq
          simp only [joinChar] at hoeq
          rw [← hoeq]
          simp [splitChar]
        · rw [hl] at hoeq
          simp only [joinChar] at hoeq
          rw [← hoeq, splitChar_not_mem _ (hlines w1 (by rw [hl]; exact List.mem_cons_self _ _))]
          simp
        · cases rest with
          | nil =>
            rw [hl] at hoeq
            have hj : joinChar '\n' [w1, w2] = w1 ++ '\n' :: w2 := rfl
            rw [hj] at hoeq
            have h1 : '\n' ∉ w1 := hlines w1 (by rw [hl]; exact List.mem_cons_self _ _)
            have h2 : '\n' ∉ w2 := hlines w2 (by rw [hl]; simp)
            rw [← hoeq, splitChar_append _ _ h1, splitChar_not_mem _ h2]
            simp
          | cons w3 rest2 =>
            rw [hl] at hshort
            simp at hshort

/-- C5 counterexample: with width 5, the input `ab cdefghijk` wraps to
`ab\ncdefghijk`, whose second line has 9 > 5 characters and does not end
with a hyphen (no hyphen break happened); and an input that already
contains newlines is returned unchanged when short enough, here with
three newline-delimited lines. -/
theorem c5_counterexample :
    wrapSubtitleText "ab cdefghijk".data 5 = some "ab\ncdefghijk".data ∧
    (splitChar '\n' "ab\ncdefghijk".data)[1]? = some "cdefghijk".data ∧
    5 < "cdefghijk".data.length ∧
    "cdefghijk".data.getLast? ≠ some '-' ∧
    wrapSubtitleText "a\nb\nc".data 42 = some "a\nb\nc".data ∧
    2 < (splitChar '\n' "a\nb\nc".data).length := by
  refine ⟨by decide, by decide, by decide, by decide, by decide, by decide⟩

/-- C5 witness: the amended two-line bound applied at fuel 13, input
`ab cdefghijk`, width 5. -/
theorem c5_wrap_two_lines_witness :
    (1 ≤ 5 ∧ '\n' ∉ "ab cdefghijk".data ∧
      wrapGo 13 "ab cdefghijk".data 5 = some "ab\ncdefghijk".data) ∧
    (splitChar '\n' "ab\ncdefghijk".data).length ≤ 2 :=
  ⟨⟨by decide, by decide, by decide⟩,
   c5_wrap_two_lines 13 "ab cdefghijk".data 5 "ab\ncdefghijk".data
     (by decide) (by decide) (by decide)⟩

/-! ## C8–C10: the probe-log timeline -/

theorem countStarts_cons_start {s : ProbeSignal} (xs : List ProbeSignal)
    (h : s.checksum ≠ "00000000") : countStarts (s :: xs) = countStarts xs + 1 := by
  simp [countStarts, List.filter_cons, h]

theorem countStarts_cons_blank {s : ProbeSignal} (xs : List ProbeSignal)
    (h : s.checksum = "00000000") : countStarts (s :: xs) = countStarts xs := by
  simp [countStarts, List.filter_cons, h]

theorem parseTimelineGo_isSome :
    ∀ (sigs : List ProbeSignal) (acc : List TimelineEntry),
      (parseTimelineGo sigs acc acc.length).isSome = true := by
  intro sigs
  induction sigs with
  | nil => intro acc; rfl
  | cons s rest ih =>
    intro acc
    simp only [parseTimelineGo]
    split
    · have := ih (acc ++ [⟨acc.length, s.time, s.time + 3000⟩])
      simpa [List.length_append] using this
    · split
      · rename_i hpos
        have hlt : acc.length - 1 < acc.length := by omega
        rw [List.getElem?_eq_getElem hlt]
        have := ih (acc.set (acc.length - 1)
          { acc[acc.length - 1] with endTime := s.time })
        simpa [List.length_set] using this
      · exact ih acc

theorem parseTimelineGo_append :
    ∀ (xs ys : List ProbeSignal) (acc : List TimelineEntry) (ti : Nat),
      parseTimelineGo (xs ++ ys) acc ti =
        (parseTimelineGo xs acc ti).bind
          (fun acc2 => parseTimelineGo ys acc2 (ti + countStarts xs)) := by
  intro xs
  induction xs with
  | nil =>
    intro ys acc ti
    simp [parseTimelineGo, countStarts]
  | cons s xs ih =>
    intro ys acc ti
    by_cases hs : s.checksum ≠ "00000000"
    · rw [List.cons_append]
      simp only [parseTimelineGo, if_pos hs]
      rw [ih, countStarts_cons_start xs hs]
      have : ti + (countStarts xs + 1) = ti + 1 + countStarts xs := by omega
      rw [this]
    · push_neg at hs
      have hnotif : ¬ (s.checksum ≠ "00000000") := by simp [hs]
      rw [List.cons_append, countStarts_cons_blank xs hs]
      by_cases hlen : acc.length > 0
      · rcases hget : acc[ti - 1]? with _ | e
        · simp only [parseTimelineGo, if_neg hnotif, if_pos hlen, hget]
          simp
        · simp only [parseTimelineGo, if_neg hnotif, if_pos hlen, hget]
          exact ih ys _ ti
      · simp only [parseTimelineGo, if_neg hnotif, if_neg hlen]
        exact ih ys acc ti

theorem parseTimelineGo_length :
    ∀ (xs : List ProbeSignal) (acc : List TimelineEntry) (ti : Nat)
      (acc2 : List TimelineEntry), parseTimelineGo xs acc ti = some acc2 →
      acc2.length = acc.length + countStarts xs := by
  intro xs
  induction xs with
  | nil =>
    intro acc ti acc2 h
    have : acc = acc2 := by injection h
    subst this
    simp [countStarts]
  | cons s xs ih =>
    intro acc ti acc2 h
    by_cases hs : s.checksum ≠ "00000000"
    · simp only [parseTimelineGo, if_pos hs] at h
      have := ih _ _ _ h
      rw [countStarts_cons_start xs hs]
      simp [List.length_append] at this
      omega
    · push_neg at hs
      have hnotif : ¬ (s.checksum ≠ "00000000") := by simp [hs]
      rw [countStarts_cons_blank xs hs]
      by_cases hlen : acc.length > 0
      · rcases hget : acc[ti - 1]? with _ | e
        · simp only [parseTimelineGo, if_neg hnotif, if_pos hlen, hget] at h
          cases h
        · simp only [parseTimelineGo, if_neg hnotif, if_pos hlen, hget] at h
          have := ih _ _ _ h
          simpa [List.length_set] using this
      · simp only [parseTimelineGo, if_neg hnotif, if_neg hlen] at h
        exact ih _ _ _ h

theorem parseTimelineGo_noBlank :
    ∀ (xs : List ProbeSignal) (acc : List TimelineEntry) (ti : Nat),
      (∀ x ∈ xs, x.checksum ≠ "00000000") →
      parseTimelineGo xs acc ti = some (acc ++ defaultEntries xs ti) := by
  intro xs
  induction xs with
  | nil =>
    intro acc ti _
    simp [parseTimelineGo, defaultEntries]
  | cons s xs ih =>
    intro acc ti h
    have hs : s.checksum ≠ "00000000" := h s (List.mem_cons_self _ _)
    simp only [parseTimelineGo, if_pos hs, defaultEntries]
    rw [ih _ (ti + 1) fun x hx => h x (List.mem_cons_of_mem _ hx)]
    simp

theorem set_concat {α : Type} (l : List α) (a b : α) :
    (l ++ [a]).set l.length b = l ++ [b] := by
  induction l with
  | nil => rfl
  | cons c rest ih => simp [List.set_cons_succ, ih]

theorem alternating_two {s e : ProbeSignal} {rest : List ProbeSignal}
    (h : alternating (s :: e :: rest) = true) :
    s.checksum ≠ "00000000" ∧ e.checksum = "00000000" ∧ alternating rest = true := by
  simpa [alternating, Bool.and_eq_true, decide_eq_true_eq, and_assoc] using h

theorem parseTimelineGo_alternating :
    ∀ (n : Nat) (sigs : List ProbeSignal), sigs.length ≤ n → alternating sigs = true →
      ∀ acc : List TimelineEntry,
        parseTimelineGo sigs acc acc.length = some (acc ++ expectedTl sigs acc.length) := by
  intro n
  induction n with
  | zero =>
    intro sigs hlen _ acc
    have : sigs = [] := List.length_eq_zero.mp (by omega)
    subst this
    simp [parseTimelineGo, expectedTl]
  | succ n ih =>
    intro sigs hlen halt acc
    match sigs with
    | [] => simp [parseTimelineGo, expectedTl]
    | [s] =>
      have hs : s.checksum ≠ "00000000" := by
        simpa [alternating, decide_eq_true_eq] using halt
      simp [parseTimelineGo, if_pos hs, expectedTl]
    | s :: e :: rest =>
      obtain ⟨hs, he, hrest⟩ := alternating_two halt
      have hnotif : ¬ (e.checksum ≠ "00000000") := by simp [he]
      simp only [parseTimelineGo, if_pos hs]
      have hlen2 : (acc ++ [(⟨acc.length, s.time, s.time + 3000⟩ : TimelineEntry)]).length =
          acc.length + 1 := by simp
      rw [hlen2]
      simp only [parseTimelineGo, if_neg hnotif]
      rw [if_pos (show acc.length + 1 > 0 by omega)]
      have hidx : acc.length + 1 - 1 = acc.length := by omega
      rw [hidx, List.getElem?_concat_length]
      simp only
      rw [set_concat]
      have hacc2 : (acc ++ [(⟨acc.length, s.time, e.time⟩ : TimelineEntry)]).length =
          acc.length + 1 := by simp
      have := ih rest (by simp at hlen; omega) hrest
        (acc ++ [(⟨acc.length, s.time, e.time⟩ : TimelineEntry)])
      rw [hacc2] at this
      rw [this]
      simp [expectedTl]

theorem expectedTl_map_start :
    ∀ (n : Nat) (sigs : List ProbeSignal), sigs.length ≤ n → alternating sigs = true →
      ∀ ti : Nat, (expectedTl sigs ti).map TimelineEntry.startTime =
        (sigs.filter fun s => s.checksum ≠ "00000000").map ProbeSignal.time := by
  intro n
  induction n with
  | zero =>
    intro sigs hlen _ ti
    have : sigs = [] := List.length_eq_zero.mp (by omega)
    subst this
    simp [expectedTl]
  | succ n ih =>
    intro sigs hlen halt ti
    match sigs with
    | [] => simp [expectedTl]
    | [s] =>
      have hs : s.checksum ≠ "00000000" := by
        simpa [alternating, decide_eq_true_eq] using halt
      simp [expectedTl, List.filter_cons, hs]
    | s :: e :: rest =>
      obtain ⟨hs, he, hrest⟩ := alternating_two halt
      simp only [expectedTl, List.map_cons]
      rw [ih rest (by simp at hlen; omega) hrest (ti + 1)]
      simp [List.filter_cons, hs, he]

theorem timesIncreasing_tail {a : ProbeSignal} {l : List ProbeSignal}
    (h : timesIncreasing (a :: l) = true) : timesIncreasing l = true := by
  cases l with
  | nil => rfl
  | cons b rest =>
    simp only [timesIncreasing, Bool.and_eq_true] at h
    exact h.2

theorem timesIncreasing_head {a b : ProbeSignal} {l : List ProbeSignal}
    (h : timesIncreasing (a :: b :: l) = true) : a.time < b.time := by
  simp only [timesIncreasing, Bool.and_eq_true, decide_eq_true_eq] at h
  exact h.1

theorem expectedTl_closed :
    ∀ (n : Nat) (sigs : List ProbeSignal), sigs.length ≤ n → alternating sigs = true →
      timesIncreasing sigs = true →
      ∀ (ti : Nat), ∀ en ∈ expectedTl sigs ti, en.startTime < en.endTime := by
  intro n
  induction n with
  | zero =>
    intro sigs hlen _ _ ti
    have : sigs = [] := List.length_eq_zero.mp (by omega)
    subst this
    simp [expectedTl]
  | succ n ih =>
    intro sigs hlen halt hinc ti en hen
    match sigs, hen with
    | [s], hen =>
      simp only [expectedTl, List.mem_singleton] at hen
      subst hen
      simp
    | s :: e :: rest, hen =>
      obtain ⟨hs, he, hrest⟩ := alternating_two halt
      simp only [expectedTl, List.mem_cons] at hen
      rcases hen with rfl | hen
      · exact timesIncreasing_head hinc
      · exact ih rest (by simp at hlen; omega) hrest
          (timesIncreasing_tail (timesIncreasing_tail hinc)) (ti + 1) en hen

theorem nonDecreasing_cons {a : Nat} {l : List Nat}
    (hh : ∀ b, l.head? = some b → a ≤ b) (hl : nonDecreasing l = true) :
    nonDecreasing (a :: l) = true := by
  cases l with
  | nil => rfl
  | cons b rest =>
    simp only [nonDecreasing, Bool.and_eq_true, decide_eq_true_eq]
    exact ⟨hh b rfl, hl⟩

theorem expectedTl_head :
    ∀ (sigs : List ProbeSignal) (ti x : Nat),
      ((expectedTl sigs ti).map TimelineEntry.startTime).head? = some x →
      ∃ s rest, sigs = s :: rest ∧ x = s.time := by
  intro sigs ti x h
  match sigs with
  | [] => simp [expectedTl] at h
  | [s] =>
    simp [expectedTl] at h
    exact ⟨s, [], rfl, h.symm⟩
  | s :: e :: rest =>
    simp [expectedTl] at h
    exact ⟨s, e :: rest, rfl, h.symm⟩

theorem expectedTl_nonDec :
    ∀ (n : Nat) (sigs : List ProbeSignal), sigs.length ≤ n → alternating sigs = true →
      timesIncreasing sigs = true → ∀ ti : Nat,
      nonDecreasing ((expectedTl sigs ti).map TimelineEntry.startTime) = true := by
  intro n
  induction n with
  | zero =>
    intro sigs hlen _ _ ti
    have : sigs = [] := List.length_eq_zero.mp (by omega)
    subst this
    rfl
  | succ n ih =>
    intro sigs hlen halt hinc ti
    match sigs with
    | [] => rfl
    | [s] => rfl
    | s :: e :: rest =>
      obtain ⟨hs, he, hrest⟩ := alternating_two halt
      simp only [expectedTl, List.map_cons]
      apply nonDecreasing_cons
      · intro b hb
        obtain ⟨r, rest2, hrw, hb'⟩ := expectedTl_head rest (ti + 1) b hb
        have h1 : s.time < e.time := timesIncreasing_head hinc
        have h2 : e.time < r.time := by
          rw [hrw] at hinc
          exact timesIncreasing_head (timesIncreasing_tail hinc)
        omega
      · exact ih rest (by simp at hlen; omega) hrest
          (timesIncreasing_tail (timesIncreasing_tail hinc)) (ti + 1)

/-- C10: the loop counter `textIndex` always equals `timeline.length`
(the statement quantifies over every reachable loop state `acc` with
`textIndex = acc.length`), so the blank-checksum branch's access
`timeline[textIndex - 1]` is always in bounds and `parseTimeline` never
indexes outside the timeline array (`isSome`: the checked model never
reaches the out-of-bounds `none`). -/
theorem c10_no_out_of_bounds_access :
    (∀ (sigs : List ProbeSignal) (acc : List TimelineEntry),
        (parseTimelineGo sigs acc acc.length).isSome = true) ∧
    ∀ sigs : List ProbeSignal, (parseTimelineOpt sigs).isSome = true := by
  refine ⟨parseTimelineGo_isSome, fun sigs => ?_⟩
  have := parseTimelineGo_isSome sigs []
  simpa [parseTimelineOpt] using this

/-- C9: an entry opened by a start signal that no later blank-frame
signal follows keeps `endTime = startTime + 3000`; the entry sits at
position `countStarts pre` (the number of start signals before it), and
this holds for every probe log. -/
theorem c9_unclosed_entry_default (pre : List ProbeSignal) (s : ProbeSignal)
    (post : List ProbeSignal) (tl : List TimelineEntry)
    (hs : s.checksum ≠ "00000000")
    (hpost : ∀ x ∈ post, x.checksum ≠ "00000000")
    (htl : parseTimelineOpt (pre ++ s :: post) = some tl) :
    tl[countStarts pre]? = some ⟨countStarts pre, s.time, s.time + 3000⟩ := by
  unfold parseTimelineOpt at htl
  rw [parseTimelineGo_append] at htl
  cases hpre : parseTimelineGo pre [] 0 with
  | none => rw [hpre] at htl; cases htl
  | some acc2 =>
    rw [hpre] at htl
    simp only [Option.some_bind] at htl
    have hlen : acc2.length = countStarts pre := by
      have := parseTimelineGo_length pre [] 0 acc2 hpre
      simpa using this
    simp only [parseTimelineGo, if_pos hs] at htl
    rw [parseTimelineGo_noBlank post _ _ hpost] at htl
    have htl2 : (acc2 ++ [(⟨0 + countStarts pre, s.time, s.time + 3000⟩ : TimelineEntry)]) ++
        defaultEntries post (0 + countStarts pre + 1) = tl := by injection htl
    rw [← htl2, List.append_assoc,
        List.getElem?_append_right (show acc2.length ≤ countStarts pre by omega)]
    rw [hlen]
    simp

/-- C8 (amended): an alternating probe log with strictly increasing
presentation times yields a timeline whose start times are exactly the
start-signal times in log order, whose every entry (closed or not)
satisfies `startTime < endTime`, and whose start times are
non-decreasing. -/
theorem c8_alternating_increasing_timeline (sigs : List ProbeSignal)
    (tl : List TimelineEntry) (halt : alternating sigs = true)
    (hinc : timesIncreasing sigs = true)
    (htl : parseTimelineOpt sigs = some tl) :
    tl.map TimelineEntry.startTime =
      (sigs.filter fun s => s.checksum ≠ "00000000").map ProbeSignal.time ∧
    (∀ en ∈ tl, en.startTime < en.endTime) ∧
    nonDecreasing (tl.map TimelineEntry.startTime) = true := by
  have hchar := parseTimelineGo_alternating sigs.length sigs le_rfl halt []
  simp only [List.length_nil, List.nil_append] at hchar
  unfold parseTimelineOpt at htl
  rw [hchar] at htl
  have heq : expectedTl sigs 0 = tl := by injection htl
  subst heq
  exact ⟨expectedTl_map_start sigs.length sigs le_rfl halt 0,
         fun en hen => expectedTl_closed sigs.length sigs le_rfl halt hinc 0 en hen,
         expectedTl_nonDec sigs.length sigs le_rfl halt hinc 0⟩

/-- C8 counterexample: the claim as stated assumes nothing about the
signal times.  An alternating log whose end signal carries an *earlier*
timestamp than its start closes the entry with `endTime < startTime`,
so `entry.endTime > entry.startTime` fails for an entry whose closing
signal was observed. -/
theorem c8_counterexample :
    alternating [⟨5000, "AAAAAAAA"⟩, ⟨1000, "00000000"⟩] = true ∧
    parseTimelineOpt [⟨5000, "AAAAAAAA"⟩, ⟨1000, "00000000"⟩] =
      some [⟨0, 5000, 1000⟩] ∧
    ¬ ((⟨0, 5000, 1000⟩ : TimelineEntry).startTime <
        (⟨0, 5000, 1000⟩ : TimelineEntry).endTime) := by
  refine ⟨by decide, by decide, by decide⟩

/-- C8 witness: the amended statement applied to the alternating,
strictly increasing log `(1000, start), (4000, end), (5000, start)`. -/
theorem c8_alternating_increasing_timeline_witness :
    (alternating [⟨1000, "ABCDEF12"⟩, ⟨4000, "00000000"⟩, ⟨5000, "DEADBEEF"⟩] = true ∧
     timesIncreasing [⟨1000, "ABCDEF12"⟩, ⟨4000, "00000000"⟩, ⟨5000, "DEADBEEF"⟩] = true ∧
     parseTimelineOpt [⟨1000, "ABCDEF12"⟩, ⟨4000, "00000000"⟩, ⟨5000, "DEADBEEF"⟩] =
       some [⟨0, 1000, 4000⟩, ⟨1, 5000, 8000⟩]) ∧
    ([(⟨0, 1000, 4000⟩ : TimelineEntry), ⟨1, 5000, 8000⟩].map TimelineEntry.startTime =
      ([⟨1000, "ABCDEF12"⟩, ⟨4000, "00000000"⟩,
        (⟨5000, "DEADBEEF"⟩ : ProbeSignal)].filter
          fun s => s.checksum ≠ "00000000").map ProbeSignal.time ∧
     (∀ en ∈ [(⟨0, 1000, 4000⟩ : TimelineEntry), ⟨1, 5000, 8000⟩],
        en.startTime < en.endTime) ∧
     nonDecreasing ([(⟨0, 1000, 4000⟩ : TimelineEntry),
        ⟨1, 5000, 8000⟩].map TimelineEntry.startTime) = true) :=
  ⟨⟨by decide, by decide, by decide⟩,
   c8_alternating_increasing_timeline
     [⟨1000, "ABCDEF12"⟩, ⟨4000, "00000000"⟩, ⟨5000, "DEADBEEF"⟩]
     [⟨0, 1000, 4000⟩, ⟨1, 5000, 8000⟩] (by decide) (by decide) (by decide)⟩

/-- C9 witness: the unclosed-entry theorem applied to the log
`(1000, start), (2000, end), (5000, start), (6000, start)` at the third
signal, which no blank frame follows. -/
theorem c9_unclosed_entry_default_witness :
    ((⟨5000, "BBBBBBBB"⟩ : ProbeSignal).checksum ≠ "00000000" ∧
     (∀ x ∈ [(⟨6000, "CCCCCCCC"⟩ : ProbeSignal)], x.checksum ≠ "00000000") ∧
     parseTimelineOpt ([⟨1000, "AAAAAAAA"⟩, ⟨2000, "00000000"⟩] ++
       ⟨5000, "BBBBBBBB"⟩ :: [⟨6000, "CCCCCCCC"⟩]) =
       some [⟨0, 1000, 2000⟩, ⟨1, 5000, 8000⟩, ⟨2, 6000, 9000⟩]) ∧
    ([(⟨0, 1000, 2000⟩ : TimelineEntry), ⟨1, 5000, 8000⟩,
        ⟨2, 6000, 9000⟩][countStarts [⟨1000, "AAAAAAAA"⟩, ⟨2000, "00000000"⟩]]? =
      some ⟨countStarts [⟨1000, "AAAAAAAA"⟩, ⟨2000, "00000000"⟩], 5000, 5000 + 3000⟩) :=
  ⟨⟨by decide, by decide, by decide⟩,
   c9_unclosed_entry_default [⟨1000, "AAAAAAAA"⟩, ⟨2000, "00000000"⟩]
     ⟨5000, "BBBBBBBB"⟩ [⟨6000, "CCCCCCCC"⟩]
     [⟨0, 1000, 2000⟩, ⟨1, 5000, 8000⟩, ⟨2, 6000, 9000⟩]
     (by decide) (by decide) (by decide)⟩

/-! ## C2 (amended): the CLI merge drops short slots and renumbers -/

theorem renumberFrom_map_index :
    ∀ (l : List (Nat × Nat × List Char)) (k : Nat),
      (renumberFrom k l).map SrtEntry.index = List.range' k l.length := by
  intro l
  induction l with
  | nil => intro k; rfl
  | cons t rest ih =>
    intro k
    simp only [renumberFrom, List.map_cons, List.length_cons, List.range'_succ]
    rw [ih (k + 1)]

theorem renumberFrom_length :
    ∀ (l : List (Nat × Nat × List Char)) (k : Nat), (renumberFrom k l).length = l.length := by
  intro l
  induction l with
  | nil => intro k; rfl
  | cons t rest ih =>
    intro k
    simp [renumberFrom, ih]

theorem pswoGo_renumber :
    ∀ (subs : List IdxSub) (ocr : List (List Char)) (acc : List SrtEntry),
      pswoGo subs ocr acc = acc ++ renumberFrom (acc.length + 1) (survivingSlots subs ocr) := by
  intro subs
  induction subs with
  | nil =>
    intro ocr acc
    simp [pswoGo, survivingSlots, renumberFrom]
  | cons s rest ih =>
    intro ocr acc
    simp only [pswoGo, survivingSlots]
    split
    · exact ih ocr.tail acc
    · split
      · exact ih ocr.tail acc
      · rw [ih ocr.tail]
        simp only [renumberFrom, List.length_append, List.length_singleton]
        rw [List.append_assoc]
        rfl

/-- C2 (amended): the CLI merge `processSubtitlesWithOCR` equals the
renumbering (from 1) of exactly the slots whose cleaned, trimmed text
has length ≥ 2 (with their positional timeline times), so a short slot
produces no entry and the surviving indices are contiguous
`1, 2, …, N` in order. -/
theorem c2_cli_merge_filters_and_renumbers (subs : List IdxSub) (ocr : List (List Char)) :
    processSubtitlesWithOCR subs ocr = renumberFrom 1 (survivingSlots subs ocr) ∧
    (processSubtitlesWithOCR subs ocr).map SrtEntry.index =
      List.range' 1 (processSubtitlesWithOCR subs ocr).length := by
  have h := pswoGo_renumber subs ocr []
  have h1 : processSubtitlesWithOCR subs ocr = renumberFrom 1 (survivingSlots subs ocr) := by
    simpa [processSubtitlesWithOCR] using h
  refine ⟨h1, ?_⟩
  rw [h1, renumberFrom_map_index, renumberFrom_length]

/-! ## C4: missing size declaration → silent fallback to 720×480 -/

theorem parseIdxSizeGo_no_size :
    ∀ (lines : List (List Char)) (st : Option JsSize),
      (∀ l ∈ lines, ¬ ("size:".data).isPrefixOf (trimChars l)) →
      ∀ st2, parseIdxSizeGo lines st = some st2 → st2 = st := by
  intro lines
  induction lines with
  | nil =>
    intro st _ st2 h
    have : st = st2 := by injection h
    exact this.symm
  | cons line rest ih =>
    intro st hns st2 h
    have hline : ¬ ("size:".data).isPrefixOf (trimChars line) :=
      hns line (List.mem_cons_self _ _)
    have hrest : ∀ l ∈ rest, ¬ ("size:".data).isPrefixOf (trimChars l) :=
      fun l hl => hns l (List.mem_cons_of_mem _ hl)
    unfold parseIdxSizeGo at h
    split at h
    · exact ih st hrest st2 h
    · split at h
      · split at h
        · cases h
        · exact ih st hrest st2 h
      · split at h
        · split at h
          · cases h
          · exact ih st hrest st2 h
        · split at h
          · split at h
            · cases h
            · split at h
              · cases h
              · exact ih st hrest st2 h
          · exact ih st hrest st2 h

theorem parseIdxSizeGo_benign :
    ∀ (lines : List (List Char)) (st : Option JsSize),
      (∀ l ∈ lines,
        ¬ ("size:".data).isPrefixOf (trimChars l) ∧
        ¬ ("palette:".data).isPrefixOf (trimChars l) ∧
        ¬ ("id:".data).isPrefixOf (trimChars l) ∧
        ¬ ("timestamp:".data).isPrefixOf (trimChars l)) →
      parseIdxSizeGo lines st = some st := by
  intro lines
  induction lines with
  | nil => intro st _; rfl
  | cons line rest ih =>
    intro st hb
    obtain ⟨h1, h2, h3, h4⟩ := hb line (List.mem_cons_self _ _)
    have hrest := fun l hl => hb l (List.mem_cons_of_mem _ hl)
    unfold parseIdxSizeGo
    split
    · exact ih st hrest
    · exact ih st hrest

theorem sizeRegexSearch_none :
    ∀ content : List Char, (∀ suf ∈ content.tails, matchSizeAt suf = none) →
      sizeRegexSearch content = none := by
  intro content
  induction content with
  | nil => intro _; rfl
  | cons c rest ih =>
    intro h
    simp only [sizeRegexSearch]
    rw [h (c :: rest) (by rw [List.mem_tails])]
    exact ih fun suf hsuf => h suf (by
      rw [List.mem_tails] at hsuf ⊢
      exact hsuf.trans (List.suffix_cons c rest))

/-- C4: when no trimmed line of the index file starts with `size:`, the
legacy parser's `metadata.size` stays unset whenever the parse completes
(and the parse does complete — silently, with no error — when no other
keyword line is present either), so `extractSubtitleFrames` renders with
the fallback 720×480; the library regex parser likewise finds no match
when no position of the file matches `size:\s*(\d+)x(\d+)`, keeping its
metadata empty without raising. -/
theorem c4_metadata_fallback (content : List Char)
    (hnosize : ∀ l ∈ splitChar '\n' content, ¬ ("size:".data).isPrefixOf (trimChars l)) :
    (∀ st, parseIdxSize content = some st →
      st = none ∧ extractFramesDims st = { width := some 720, height := some 480 }) ∧
    ((∀ l ∈ splitChar '\n' content,
        ¬ ("palette:".data).isPrefixOf (trimChars l) ∧
        ¬ ("id:".data).isPrefixOf (trimChars l) ∧
        ¬ ("timestamp:".data).isPrefixOf (trimChars l)) →
      parseIdxSize content = some none) ∧
    ((∀ suf ∈ content.tails, matchSizeAt suf = none) → sizeRegexSearch content = none) := by
  refine ⟨?_, ?_, sizeRegexSearch_none content⟩
  · intro st hst
    have : st = none := parseIdxSizeGo_no_size (splitChar '\n' content) none hnosize st hst
    subst this
    exact ⟨rfl, rfl⟩
  · intro hb
    exact parseIdxSizeGo_benign (splitChar '\n' content) none fun l hl =>
      ⟨hnosize l hl, (hb l hl).1, (hb l hl).2.1, (hb l hl).2.2⟩

/-- C4 witness: the fallback theorem applied to a two-line index file
with a comment and a stray line and no `size:` declaration. -/
theorem c4_metadata_fallback_witness :
    ((∀ l ∈ splitChar '\n' "# comment\nfoo".data,
        ¬ ("size:".data).isPrefixOf (trimChars l)) ∧
     parseIdxSize "# comment\nfoo".data = some none ∧
     extractFramesDims none = { width := some 720, height := some 480 } ∧
     sizeRegexSearch "# comment\nfoo".data = none) :=
  ⟨by decide,
   (c4_metadata_fallback "# comment\nfoo".data (by decide)).2.1 (by decide),
   ((c4_metadata_fallback "# comment\nfoo".data (by decide)).1 none
     ((c4_metadata_fallback "# comment\nfoo".data (by decide)).2.1 (by decide))).2,
   (c4_metadata_fallback "# comment\nfoo".data (by decide)).2.2 (by decide)⟩
